import Mathlib

/-!
Verification of the Teddy engine-selection layer
(`src/fdr/teddy_engine_description.cpp` of the hyperscan repository).

Byte strings are modelled as `List Nat` (one `Nat` per byte), machine
integers as `Nat` with the source's comparisons and integer divisions
carried over literally, and the generated engine catalog (produced by
`teddy_autogen_compiler.cpp`, outside this repository's sources) as an
arbitrary list of descriptors over which all theorems quantify.
-/

/-- A literal from the hwlm literal set: the byte string `s` and the
optional exclusion mask `msk` (empty when unused).  Mirrors the fields of
`hwlmLiteral` that `teddy_engine_description.cpp` reads. -/
structure hwlmLiteral where
  s : List Nat
  msk : List Nat
deriving DecidableEq

/-- A Teddy engine descriptor: the fields of `TeddyEngineDescription`
(and of its base `EngineDescription`) that the selection code reads.
The target capability set is modelled as a `Nat` bitmask. -/
structure TeddyEngineDescription where
  id : Nat
  cpu_features : Nat
  numBuckets : Nat
  confirmPullBackDistance : Nat
  confirmTopLevelSplit : Nat
  numMasks : Nat
  packed : Bool
deriving DecidableEq

/-- `getNumBuckets` accessor of the descriptor. -/
def TeddyEngineDescription.getNumBuckets (eng : TeddyEngineDescription) : Nat :=
  eng.numBuckets

/-- `getID` accessor of the descriptor. -/
def TeddyEngineDescription.getID (eng : TeddyEngineDescription) : Nat :=
  eng.id

/-- `getDefaultFloodSuffixLength` returns `numMasks`
(`teddy_engine_description.cpp`, lines 52-54). -/
def TeddyEngineDescription.getDefaultFloodSuffixLength
    (eng : TeddyEngineDescription) : Nat :=
  eng.numMasks

/-- Modelled from the spec: `isValidOnTarget(capabilities)` is true iff the
descriptor's required capability subset is contained in the supplied
capabilities (the definition lives in `engine_description`, outside src/);
capability sets are bitmasks, so containment is bitwise. -/
def TeddyEngineDescription.isValidOnTarget (eng : TeddyEngineDescription)
    (target : Nat) : Bool :=
  eng.cpu_features ||| target == target

/-- Modelled from the spec: `TEDDY_BUCKET_LOAD`, the fixed per-bucket
literal-capacity multiplier of the engine family (`BUCKET_LOAD_FACTOR` in
the spec; its definition is in `teddy_engine_description.h`, outside src/,
and no theorem below depends on its exact value). -/
def TEDDY_BUCKET_LOAD : Nat := 32

/-- Modelled from the spec: `maxLen(vl)` is the maximum literal length in
the set (declared in `fdr_compile_internal.h`, outside src/). -/
def maxLen (vl : List hwlmLiteral) : Nat :=
  vl.foldl (fun m lit => max m lit.s.length) 0

/-- `TeddyEngineDescription::needConfirm` (lines 56-66): true when the
descriptor is packed, literals outnumber buckets, some literal is longer
than `numMasks`, or some literal has a non-empty mask. -/
def TeddyEngineDescription.needConfirm (eng : TeddyEngineDescription)
    (lits : List hwlmLiteral) : Bool :=
  if eng.packed || decide (lits.length > eng.getNumBuckets) then
    true
  else
    lits.any fun lit =>
      decide (lit.s.length > eng.numMasks) || !lit.msk.isEmpty

/-- The inner loop of `maxFloodTailLen` (lines 76-81): starting from
`j = 1`, keep advancing while `j < s.length()` and
`s[s.length() - j - 1] == s[s.length() - 1]`; the result is the final `j`.
The loop counter is encoded structurally: `fuel` is `s.length - j`, so
`fuel = 0` is exactly the exit condition `j = s.length`. -/
def floodTailAux (s : List Nat) (last : Nat) : Nat → Nat → Nat
  | 0, j => j
  | fuel + 1, j =>
      if s.getD (s.length - j - 1) 0 = last then
        floodTailAux s last fuel (j + 1)
      else
        j

/-- The per-literal flood-tail value computed by `maxFloodTailLen`
(lines 74-82): the loop above run from `j = 1` with the last byte of `s`
as the comparison value. -/
def floodTailLen (s : List Nat) : Nat :=
  floodTailAux s (s.getD (s.length - 1) 0) (s.length - 1) 1

/-- `maxFloodTailLen` (lines 70-85): the maximum of the per-literal
flood-tail values over the whole literal set. -/
def maxFloodTailLen (vl : List hwlmLiteral) : Nat :=
  vl.foldl (fun m lit => max m (floodTailLen lit.s)) 0

/-- Check 2 of `isAllowed` (line 98): an unpacked variant cannot place
more literals than it has buckets. -/
def bucketCheckUnpacked (eng : TeddyEngineDescription)
    (vl : List hwlmLiteral) : Bool :=
  decide (eng.getNumBuckets < vl.length) && !eng.packed

/-- Check 3 of `isAllowed` (line 103): the hard capacity ceiling
`numBuckets * TEDDY_BUCKET_LOAD < vl.size()`. -/
def bucketCheckLoad (eng : TeddyEngineDescription)
    (vl : List hwlmLiteral) : Bool :=
  decide (eng.getNumBuckets * TEDDY_BUCKET_LOAD < vl.length)

/-- `isAllowed` (lines 91-128): the eligibility filter.  Checks, in
order: target validity, the two bucket-capacity checks, the mask-length
check, and (only when more than 40 literals) the short-literal flood
heuristic. -/
def isAllowed (vl : List hwlmLiteral) (eng : TeddyEngineDescription)
    (max_lit_len : Nat) (target : Nat) : Bool :=
  if !eng.isValidOnTarget target then
    false
  else if bucketCheckUnpacked eng vl then
    false
  else if bucketCheckLoad eng vl then
    false
  else if decide (eng.numMasks > max_lit_len) then
    false
  else if decide (vl.length > 40) then
    let n_small_lits :=
      (vl.filter fun lit => decide (lit.s.length < eng.numMasks)).length
    if decide (n_small_lits * 5 > vl.length) then false else true
  else
    true

/-- The score accumulation of `chooseTeddyEngine` (lines 148-172),
written as the same sequence of conditional increments. -/
def scoreDesc (vl : List hwlmLiteral) (eng : TeddyEngineDescription)
    (max_flood_tail : Nat) : Nat :=
  let score0 : Nat := 0
  let score1 := if !eng.packed then score0 + 100 else score0
  let score2 :=
    if decide (vl.length > 4 * eng.getNumBuckets) then
      score1 + eng.numMasks * 4
    else
      score1 + 100
  let score3 :=
    if decide (eng.numMasks > max_flood_tail) then score2 + 50 else score2
  let score4 := score3 + 6 / (((3 : Int) - (eng.numMasks : Int)).natAbs + 1)
  score4 + 16 / eng.getNumBuckets

/-- One iteration of the selection loop of `chooseTeddyEngine`
(lines 142-183): skip ineligible descriptors; otherwise replace the best
seen so far when there is none yet or on strict score improvement. -/
def chooseStep (target : Nat) (vl : List hwlmLiteral) (max_lit_len : Nat)
    (max_flood_tail : Nat) (acc : Option (TeddyEngineDescription × Nat))
    (eng : TeddyEngineDescription) : Option (TeddyEngineDescription × Nat) :=
  if !isAllowed vl eng max_lit_len target then
    acc
  else
    let score := scoreDesc vl eng max_flood_tail
    match acc with
    | none => some (eng, score)
    | some (best, best_score) =>
        if decide (score > best_score) then some (eng, score)
        else some (best, best_score)

/-- `chooseTeddyEngine` (lines 130-192), parametrised by the generated
catalog `descs` (the contents of `getTeddyDescriptions`, produced outside
this repository's sources): compute `max_lit_len` and `max_flood_tail`,
run the selection loop over the catalog in order, and return the best
descriptor, or `none` when no descriptor was eligible. -/
def chooseTeddyEngine (descs : List TeddyEngineDescription) (target : Nat)
    (vl : List hwlmLiteral) : Option TeddyEngineDescription :=
  let max_lit_len := maxLen vl
  let max_flood_tail := maxFloodTailLen vl
  (descs.foldl (chooseStep target vl max_lit_len max_flood_tail) none).map
    Prod.fst

/-- `getTeddyDescription` (lines 194-205), parametrised by the same
catalog: linear search for an entry whose id matches `engineID`. -/
def getTeddyDescription (descs : List TeddyEngineDescription)
    (engineID : Nat) : Option TeddyEngineDescription :=
  descs.find? fun desc => desc.getID == engineID

/-! ## Spec-side definitions

These follow the spec's (amended) wording rather than the source, for
comparison with the source-derived definitions above. -/

/-- Written from the spec's wording for the flood tail: the length of the
run of bytes equal to the last byte of `s` at the end of `s` (here
including the last byte itself, as the code below actually computes). -/
def suffixRunLen (s : List Nat) : Nat :=
  (s.reverse.takeWhile fun c => c == s.reverse.headD 0).length

/-- Written from the spec's wording for the score of §4.4: the sum of the
five independently-motivated terms. -/
def specScoreFormula (eng : TeddyEngineDescription) (nlits : Nat)
    (maxFloodTail : Nat) : Nat :=
  (if eng.packed = false then 100 else 0)
    + (if nlits > 4 * eng.numBuckets then eng.numMasks * 4 else 100)
    + (if eng.numMasks > maxFloodTail then 50 else 0)
    + 6 / ((max 3 eng.numMasks - min 3 eng.numMasks) + 1)
    + 16 / eng.numBuckets

/-! ## Bounds-checked flood-tail analysis

Used for the safety claim: every string access of `maxFloodTailLen` is
performed through `getElem?`, and the source's `assert(!s.empty())` is
modelled as failure (`none`). -/

/-- The flood-tail loop with checked accesses: reads
`s[s.length() - j - 1]` and `s[s.length() - 1]` exactly where the source
does, yielding `none` if either index is out of bounds. -/
def floodTailAuxChecked (s : List Nat) : Nat → Nat → Option Nat
  | 0, j => some j
  | fuel + 1, j =>
      match s[s.length - j - 1]?, s[s.length - 1]? with
      | some a, some b =>
          if a = b then floodTailAuxChecked s fuel (j + 1) else some j
      | _, _ => none

/-- The per-literal flood-tail analysis with the assertion
`assert(!s.empty())` modelled as failure and all accesses checked. -/
def floodTailLenChecked (s : List Nat) : Option Nat :=
  if s.isEmpty then none else floodTailAuxChecked s (s.length - 1) 1

/-- `maxFloodTailLen` over the literal set, with the checked per-literal
analysis; `none` as soon as any literal trips the assertion or an access
is out of bounds. -/
def maxFloodTailLenChecked (vl : List hwlmLiteral) : Option Nat :=
  vl.foldlM (fun m lit => (floodTailLenChecked lit.s).map fun t => max m t) 0

/-! ## Flood-tail lemmas -/

lemma floodTailAux_spec (s : List Nat) (last : Nat) :
    ∀ fuel j, 1 ≤ j → j + fuel = s.length →
      floodTailAux s last fuel j =
        j + ((s.reverse.drop j).takeWhile fun c => c == last).length := by
  intro fuel
  induction fuel with
  | zero =>
      intro j h1 h2
      have hj : s.reverse.length ≤ j := by
        rw [List.length_reverse]
        omega
      rw [List.drop_eq_nil_of_le hj]
      simp [floodTailAux]
  | succ fuel ih =>
      intro j h1 h2
      have hj : j < s.length := by omega
      have hjr : j < s.reverse.length := by
        rw [List.length_reverse]
        exact hj
      have hidx : s.reverse[j]? = s[s.length - 1 - j]? := by
        exact List.getElem?_reverse hj
      have hii : s.length - j - 1 = s.length - 1 - j := by omega
      have hgetD : s.getD (s.length - j - 1) 0 = s.reverse.getD j 0 := by
        rw [hii, List.getD_eq_getElem?_getD, List.getD_eq_getElem?_getD, hidx]
      have hdrop : s.reverse.drop j =
          s.reverse[j] :: s.reverse.drop (j + 1) :=
        List.drop_eq_getElem_cons hjr
      have hgetD2 : s.reverse.getD j 0 = s.reverse[j] := by
        rw [List.getD_eq_getElem?_getD, List.getElem?_eq_getElem hjr]
        rfl
      have hval : s.reverse[j] = s.getD (s.length - j - 1) 0 := by
        rw [hgetD, hgetD2]
      rw [floodTailAux]
      by_cases heq : s.getD (s.length - j - 1) 0 = last
      · have hbeq : (s.reverse[j] == last) = true := by
          rw [hval]
          exact beq_iff_eq.mpr heq
        rw [if_pos heq, ih (j + 1) (by omega) (by omega), hdrop,
          List.takeWhile_cons, if_pos hbeq]
        rw [List.length_cons]
        omega
      · have hbeq : ¬ ((s.reverse[j] == last) = true) := by
          rw [hval]
          simp only [beq_iff_eq]
          exact heq
        rw [if_neg heq, hdrop, List.takeWhile_cons, if_neg hbeq]
        simp

lemma floodTailLen_eq_suffixRunLen (s : List Nat) (hs : s ≠ []) :
    floodTailLen s = suffixRunLen s := by
  have hlen : 1 ≤ s.length := List.length_pos.mpr hs
  obtain ⟨b, t, hbt⟩ : ∃ b t, s.reverse = b :: t := by
    cases hr : s.reverse with
    | nil =>
        exact absurd (by simpa using congrArg List.reverse hr) hs
    | cons b t => exact ⟨b, t, rfl⟩
  have hlast : s.getD (s.length - 1) 0 = b := by
    have h0 : (0 : Nat) < s.length := hlen
    have h0r : (0 : Nat) < s.reverse.length := by
      rw [List.length_reverse]
      exact h0
    have := List.getElem?_reverse (l := s) (i := 0) h0
    rw [List.getD_eq_getElem?_getD]
    rw [show s.length - 1 = s.length - 1 - 0 from rfl, ← this, hbt]
    simp
  have hmain := floodTailAux_spec s (s.getD (s.length - 1) 0)
    (s.length - 1) 1 le_rfl (by omega)
  rw [floodTailLen, hmain, hlast]
  have hheadD : s.reverse.headD 0 = b := by rw [hbt]; rfl
  rw [suffixRunLen, hheadD, hbt, List.takeWhile_cons,
    if_pos (beq_iff_eq.mpr rfl)]
  simp [Nat.add_comm]

lemma foldl_max_map_congr (f g : hwlmLiteral → Nat) :
    ∀ (vl : List hwlmLiteral), (∀ l ∈ vl, f l = g l) →
      ∀ a : Nat, vl.foldl (fun m l => max m (f l)) a =
        (vl.map g).foldl max a := by
  intro vl
  induction vl with
  | nil => intro _ a; rfl
  | cons x xs ih =>
      intro h a
      simp only [List.map_cons, List.foldl_cons]
      rw [h x (by simp)]
      exact ih (fun l hl => h l (by simp [hl])) _

lemma floodTailAux_ge (s : List Nat) (last : Nat) :
    ∀ fuel j, j ≤ floodTailAux s last fuel j := by
  intro fuel
  induction fuel with
  | zero => intro j; exact le_rfl
  | succ fuel ih =>
      intro j
      rw [floodTailAux]
      by_cases heq : s.getD (s.length - j - 1) 0 = last
      · rw [if_pos heq]
        exact le_trans (Nat.le_succ j) (ih (j + 1))
      · rw [if_neg heq]

lemma floodTailLen_ge_one (s : List Nat) : 1 ≤ floodTailLen s :=
  floodTailAux_ge s (s.getD (s.length - 1) 0) (s.length - 1) 1

lemma le_foldl_max (f : hwlmLiteral → Nat) :
    ∀ (vl : List hwlmLiteral) (a : Nat),
      a ≤ vl.foldl (fun m l => max m (f l)) a := by
  intro vl
  induction vl with
  | nil => intro a; exact le_rfl
  | cons x xs ih =>
      intro a
      simp only [List.foldl_cons]
      exact le_trans (Nat.le_max_left a (f x)) (ih (max a (f x)))

lemma floodTailAuxChecked_eq (s : List Nat) :
    ∀ fuel j, 1 ≤ j → j + fuel = s.length →
      floodTailAuxChecked s fuel j =
        some (floodTailAux s (s.getD (s.length - 1) 0) fuel j) := by
  intro fuel
  induction fuel with
  | zero => intro j _ _; rfl
  | succ fuel ih =>
      intro j h1 h2
      have hj1 : s.length - j - 1 < s.length := by omega
      have hj2 : s.length - 1 < s.length := by omega
      have ha : s.getD (s.length - j - 1) 0 = s[s.length - j - 1] := by
        rw [List.getD_eq_getElem?_getD, List.getElem?_eq_getElem hj1]
        rfl
      have hb : s.getD (s.length - 1) 0 = s[s.length - 1] := by
        rw [List.getD_eq_getElem?_getD, List.getElem?_eq_getElem hj2]
        rfl
      have hred : floodTailAuxChecked s (fuel + 1) j =
          if s[s.length - j - 1] = s[s.length - 1] then
            floodTailAuxChecked s fuel (j + 1)
          else some j := by
        rw [floodTailAuxChecked, List.getElem?_eq_getElem hj1,
          List.getElem?_eq_getElem hj2]
      rw [hred, floodTailAux]
      by_cases heq : s.getD (s.length - j - 1) 0 = s.getD (s.length - 1) 0
      · have heq2 : s[s.length - j - 1] = s[s.length - 1] := by
          rw [← ha, ← hb]
          exact heq
        rw [if_pos heq, if_pos heq2]
        exact ih (j + 1) (by omega) (by omega)
      · have heq2 : ¬ s[s.length - j - 1] = s[s.length - 1] := by
          rw [← ha, ← hb]
          exact heq
        rw [if_neg heq, if_neg heq2]

lemma floodTailLenChecked_eq (s : List Nat) (hs : s ≠ []) :
    floodTailLenChecked s = some (floodTailLen s) := by
  have hlen : 1 ≤ s.length := List.length_pos.mpr hs
  rw [floodTailLenChecked, if_neg (by simp [hs]), floodTailLen]
  exact floodTailAuxChecked_eq s (s.length - 1) 1 le_rfl (by omega)

lemma maxFloodTailChecked_go :
    ∀ (vl : List hwlmLiteral), (∀ l ∈ vl, l.s ≠ []) → ∀ a : Nat,
      List.foldlM
          (fun m lit => (floodTailLenChecked lit.s).map fun t => max m t) a vl
        = some (vl.foldl (fun m lit => max m (floodTailLen lit.s)) a) := by
  intro vl
  induction vl with
  | nil => intro _ a; rfl
  | cons x xs ih =>
      intro h a
      rw [List.foldlM_cons, floodTailLenChecked_eq x.s (h x (by simp))]
      simpa using ih (fun l hl => h l (by simp [hl])) (max a (floodTailLen x.s))

/-! ## Selection-loop invariant -/

/-- Invariant of the selection loop of `chooseTeddyEngine` after the
descriptors in `l` have been processed: either nothing eligible was seen,
or the accumulator holds the earliest descriptor attaining the maximum
score among the eligible ones seen so far, together with that score. -/
def selInv (target : Nat) (vl : List hwlmLiteral) (mll mft : Nat)
    (l : List TeddyEngineDescription)
    (acc : Option (TeddyEngineDescription × Nat)) : Prop :=
  match acc with
  | none => ∀ e ∈ l, isAllowed vl e mll target = false
  | some (d, sc) =>
      sc = scoreDesc vl d mft ∧ isAllowed vl d mll target = true ∧
      ∃ l1 l2, l = l1 ++ d :: l2 ∧
        (∀ e ∈ l1, isAllowed vl e mll target = true →
          scoreDesc vl e mft < sc) ∧
        (∀ e ∈ l2, isAllowed vl e mll target = true →
          scoreDesc vl e mft ≤ sc)

lemma chooseStep_preserves (target : Nat) (vl : List hwlmLiteral)
    (mll mft : Nat) (l : List TeddyEngineDescription)
    (acc : Option (TeddyEngineDescription × Nat))
    (x : TeddyEngineDescription) (hinv : selInv target vl mll mft l acc) :
    selInv target vl mll mft (l ++ [x]) (chooseStep target vl mll mft acc x) := by
  by_cases hx : isAllowed vl x mll target = true
  · match acc, hinv with
    | none, hinv =>
        have hstep : chooseStep target vl mll mft none x =
            some (x, scoreDesc vl x mft) := by
          simp [chooseStep, hx]
        rw [hstep]
        refine ⟨rfl, hx, l, [], rfl, ?_, by simp⟩
        intro e he helig
        exact absurd (hinv e he) (by simp [helig])
    | some (d, sc), hinv =>
        obtain ⟨hsc, hd, l1, l2, hsplit, hlt, hle⟩ := hinv
        by_cases hgt : scoreDesc vl x mft > sc
        · have hstep : chooseStep target vl mll mft (some (d, sc)) x =
              some (x, scoreDesc vl x mft) := by
            simp [chooseStep, hx, hgt]
          rw [hstep]
          refine ⟨rfl, hx, l, [], by rw [hsplit], ?_, by simp⟩
          intro e he helig
          rw [hsplit] at he
          rcases List.mem_append.mp he with he1 | he2
          · exact lt_trans (hlt e he1 helig) hgt
          · rcases List.mem_cons.mp he2 with rfl | he3
            · rw [← hsc]
              exact hgt
            · exact lt_of_le_of_lt (hle e he3 helig) hgt
        · have hstep : chooseStep target vl mll mft (some (d, sc)) x =
              some (d, sc) := by
            simp [chooseStep, hx, hgt]
          rw [hstep]
          refine ⟨hsc, hd, l1, l2 ++ [x], by rw [hsplit]; simp, hlt, ?_⟩
          intro e he helig
          rcases List.mem_append.mp he with he1 | he2
          · exact hle e he1 helig
          · rw [List.mem_singleton.mp he2]
            omega
  · have hx2 : isAllowed vl x mll target = false := by
      simpa using hx
    have hstep : chooseStep target vl mll mft acc x = acc := by
      simp [chooseStep, hx2]
    rw [hstep]
    match acc, hinv with
    | none, hinv =>
        intro e he
        rcases List.mem_append.mp he with he1 | he2
        · exact hinv e he1
        · rw [List.mem_singleton.mp he2]
          exact hx2
    | some (d, sc), hinv =>
        obtain ⟨hsc, hd, l1, l2, hsplit, hlt, hle⟩ := hinv
        refine ⟨hsc, hd, l1, l2 ++ [x], by rw [hsplit]; simp, hlt, ?_⟩
        intro e he helig
        rcases List.mem_append.mp he with he1 | he2
        · exact hle e he1 helig
        · rw [List.mem_singleton.mp he2] at helig
          rw [helig] at hx2
          cases hx2

lemma selLoop_inv (target : Nat) (vl : List hwlmLiteral) (mll mft : Nat)
    (l : List TeddyEngineDescription) :
    selInv target vl mll mft l
      (l.foldl (chooseStep target vl mll mft) none) := by
  induction l using List.reverseRecOn with
  | nil => intro e he; cases he
  | append_singleton l x ih =>
      rw [List.foldl_concat]
      exact chooseStep_preserves target vl mll mft l _ x ih

/-! ## Further helper lemmas -/

lemma needConfirm_eq_or (eng : TeddyEngineDescription)
    (lits : List hwlmLiteral) :
    eng.needConfirm lits =
      (eng.packed || decide (lits.length > eng.getNumBuckets) ||
        lits.any fun lit =>
          decide (lit.s.length > eng.numMasks) || !lit.msk.isEmpty) := by
  rw [TeddyEngineDescription.needConfirm]
  by_cases h : (eng.packed || decide (lits.length > eng.getNumBuckets)) = true
  · rw [if_pos h, h]
    simp
  · rw [if_neg h]
    have h2 : (eng.packed || decide (lits.length > eng.getNumBuckets)) = false := by
      simpa using h
    rw [h2]
    simp

lemma any_perm {l1 l2 : List hwlmLiteral} (hperm : l1.Perm l2)
    (p : hwlmLiteral → Bool) : l1.any p = l2.any p := by
  rw [Bool.eq_iff_iff, List.any_eq_true, List.any_eq_true]
  constructor
  · rintro ⟨x, hx, hpx⟩
    exact ⟨x, hperm.mem_iff.mp hx, hpx⟩
  · rintro ⟨x, hx, hpx⟩
    exact ⟨x, hperm.mem_iff.mpr hx, hpx⟩

lemma chooseTeddy_eq_fold (descs : List TeddyEngineDescription)
    (target : Nat) (vl : List hwlmLiteral) :
    chooseTeddyEngine descs target vl =
      (descs.foldl
        (chooseStep target vl (maxLen vl) (maxFloodTailLen vl)) none).map
        Prod.fst := rfl

lemma chooseTeddy_mem (descs : List TeddyEngineDescription) (target : Nat)
    (vl : List hwlmLiteral) (d : TeddyEngineDescription)
    (h : chooseTeddyEngine descs target vl = some d) :
    d ∈ descs ∧ isAllowed vl d (maxLen vl) target = true := by
  have hinv := selLoop_inv target vl (maxLen vl) (maxFloodTailLen vl) descs
  rcases hacc : descs.foldl
      (chooseStep target vl (maxLen vl) (maxFloodTailLen vl)) none with
    _ | ⟨d2, sc⟩
  · rw [chooseTeddy_eq_fold, hacc] at h
    cases h
  · rw [chooseTeddy_eq_fold, hacc] at h
    injection h with hdd
    rw [hacc] at hinv
    obtain ⟨_, helig, l1, l2, hsplit, _, _⟩ := hinv
    subst hdd
    exact ⟨by rw [hsplit]; simp, helig⟩

/-! ## Concrete instances used by counterexamples and witnesses -/

/-- A length-1 literal (the byte `a`). -/
def shortLit : hwlmLiteral := ⟨[97], []⟩

/-- A length-3 literal (the bytes `abc`). -/
def longLit : hwlmLiteral := ⟨[97, 98, 99], []⟩

/-- 50 literals of which exactly 10 (20 percent) are shorter than 3. -/
def vlFifty : List hwlmLiteral :=
  List.replicate 10 shortLit ++ List.replicate 40 longLit

/-- 50 literals of which 11 (strictly more than 20 percent) are short. -/
def vlFiftyOne : List hwlmLiteral :=
  List.replicate 11 shortLit ++ List.replicate 39 longLit

/-- A packed 8-bucket 3-mask descriptor. -/
def engEight : TeddyEngineDescription := ⟨7, 0, 8, 0, 0, 3, true⟩

/-- An unpacked 8-bucket 1-mask descriptor. -/
def engCatA : TeddyEngineDescription := ⟨1, 0, 8, 0, 0, 1, false⟩

/-- A single length-2 literal (the bytes `ab`). -/
def litOne : hwlmLiteral := ⟨[97, 98], []⟩

/-! ## Claim theorems -/

/-- C1, counterexample: the claim says the flood tail of `"aaab"` is 0 and
of `"abbb"` is 2 (counting repeats of the last byte excluding the last
byte itself, capped strictly below the length); the code's loop starts at
`j = 1` and so computes 1 for `"aaab"` and 3 for `"abbb"`. -/
theorem c1_flood_tail_counterexample :
    floodTailLen [97, 97, 97, 98] = 1 ∧ ¬ floodTailLen [97, 97, 97, 98] = 0 ∧
    floodTailLen [97, 98, 98, 98] = 3 ∧ ¬ floodTailLen [97, 98, 98, 98] = 2 := by
  decide

/-- C1, amended: for every non-empty literal the flood-tail value equals
the length of the run of bytes equal to the literal's last byte at the end
of the literal, counted including the last byte itself (hence between 1
and the literal's length); in particular the flood tail of `"aaab"` is 1
and of `"abbb"` is 3, and `maxFloodTailLen` is the maximum of the
per-literal values over the whole set. -/
theorem c1_flood_tail_characterization :
    (∀ s : List Nat, s ≠ [] → floodTailLen s = suffixRunLen s) ∧
    (∀ vl : List hwlmLiteral, (∀ l ∈ vl, l.s ≠ []) →
      maxFloodTailLen vl = (vl.map fun l => suffixRunLen l.s).foldl max 0) ∧
    floodTailLen [97, 97, 97, 98] = 1 ∧ floodTailLen [97, 98, 98, 98] = 3 := by
  refine ⟨floodTailLen_eq_suffixRunLen, ?_, by decide, by decide⟩
  intro vl h
  exact foldl_max_map_congr (fun l => floodTailLen l.s)
    (fun l => suffixRunLen l.s) vl
    (fun l hl => floodTailLen_eq_suffixRunLen l.s (h l hl)) 0

/-- Witness for C1: the characterization applied to the literal `"abbb"`. -/
theorem c1_flood_tail_characterization_witness :
    floodTailLen [97, 98, 98, 98] = suffixRunLen [97, 98, 98, 98] :=
  c1_flood_tail_characterization.1 [97, 98, 98, 98] (by decide)

/-- C2: `needConfirm(literals, descriptor)` is true iff the descriptor is
packed, or the literals outnumber the buckets, or some literal is longer
than `numMasks`, or some literal carries a non-empty exclusion mask; and
the result does not depend on the order of the literals. -/
theorem c2_needConfirm_iff (eng : TeddyEngineDescription)
    (lits lits2 : List hwlmLiteral) (hperm : lits.Perm lits2) :
    (eng.needConfirm lits = true ↔
      (eng.packed = true ∨ lits.length > eng.getNumBuckets ∨
        ∃ l ∈ lits, l.s.length > eng.numMasks ∨ l.msk ≠ [])) ∧
    eng.needConfirm lits = eng.needConfirm lits2 := by
  constructor
  · rw [needConfirm_eq_or]
    simp [List.any_eq_true, or_assoc]
  · rw [needConfirm_eq_or, needConfirm_eq_or, hperm.length_eq,
      any_perm hperm]

/-- Witness for C2: `needConfirm` on a two-literal set and its
reversal. -/
theorem c2_needConfirm_iff_witness :
    (engEight.needConfirm [shortLit, litOne] = true ↔
      (engEight.packed = true ∨
        List.length [shortLit, litOne] > engEight.getNumBuckets ∨
        ∃ l ∈ [shortLit, litOne],
          l.s.length > engEight.numMasks ∨ l.msk ≠ [])) ∧
    engEight.needConfirm [shortLit, litOne] =
      engEight.needConfirm [litOne, shortLit] :=
  c2_needConfirm_iff engEight [shortLit, litOne] [litOne, shortLit]
    (by decide)

/-- C4: the score of a descriptor, as accumulated by `chooseTeddyEngine`,
equals the spec's closed formula: 100 if unpacked, plus `numMasks * 4`
when heavily loaded and a flat 100 otherwise, plus 50 when
`numMasks > maxFloodTail`, plus `6 / (|3 - numMasks| + 1)`, plus
`16 / numBuckets`. -/
theorem c4_score_formula (vl : List hwlmLiteral)
    (eng : TeddyEngineDescription) :
    scoreDesc vl eng (maxFloodTailLen vl) =
      specScoreFormula eng vl.length (maxFloodTailLen vl) := by
  have habs : ((3 : Int) - (eng.numMasks : Int)).natAbs =
      max 3 eng.numMasks - min 3 eng.numMasks := by omega
  rw [scoreDesc, specScoreFormula, habs]
  cases hp : eng.packed <;>
    simp [TeddyEngineDescription.getNumBuckets, hp] <;>
    split_ifs <;>
    omega

/-- C3: whenever some catalog descriptor is eligible, `chooseTeddyEngine`
returns the eligible descriptor with the maximum score, and on an exact
score tie the descriptor occurring earlier in catalog order wins: every
eligible descriptor strictly before the returned one scores strictly
less, and every eligible descriptor anywhere in the catalog scores at
most the returned one. -/
theorem c3_choose_max_score_first (descs : List TeddyEngineDescription)
    (target : Nat) (vl : List hwlmLiteral)
    (h : ∃ e ∈ descs, isAllowed vl e (maxLen vl) target = true) :
    ∃ best l1 l2,
      chooseTeddyEngine descs target vl = some best ∧
      descs = l1 ++ best :: l2 ∧
      isAllowed vl best (maxLen vl) target = true ∧
      (∀ e ∈ descs, isAllowed vl e (maxLen vl) target = true →
        scoreDesc vl e (maxFloodTailLen vl) ≤
          scoreDesc vl best (maxFloodTailLen vl)) ∧
      (∀ e ∈ l1, isAllowed vl e (maxLen vl) target = true →
        scoreDesc vl e (maxFloodTailLen vl) <
          scoreDesc vl best (maxFloodTailLen vl)) := by
  have hinv := selLoop_inv target vl (maxLen vl) (maxFloodTailLen vl) descs
  rcases hacc : descs.foldl
      (chooseStep target vl (maxLen vl) (maxFloodTailLen vl)) none with
    _ | ⟨d, sc⟩
  · rw [hacc] at hinv
    obtain ⟨e, he, helig⟩ := h
    rw [hinv e he] at helig
    cases helig
  · rw [hacc] at hinv
    obtain ⟨hsc, hd, l1, l2, hsplit, hlt, hle⟩ := hinv
    refine ⟨d, l1, l2, by rw [chooseTeddy_eq_fold, hacc]; rfl, hsplit, hd,
      ?_, ?_⟩
    · intro e he helig
      rw [hsplit] at he
      rcases List.mem_append.mp he with he1 | he2
      · exact le_of_lt (hsc ▸ hlt e he1 helig)
      · rcases List.mem_cons.mp he2 with rfl | he3
        · exact le_rfl
        · exact hsc ▸ hle e he3 helig
    · intro e he1 helig
      exact hsc ▸ hlt e he1 helig

/-- Witness for C3: the single-entry catalog `[engCatA]` on one
two-byte literal. -/
theorem c3_choose_max_score_first_witness :
    ∃ best l1 l2,
      chooseTeddyEngine [engCatA] 0 [litOne] = some best ∧
      [engCatA] = l1 ++ best :: l2 ∧
      isAllowed [litOne] best (maxLen [litOne]) 0 = true ∧
      (∀ e ∈ [engCatA], isAllowed [litOne] e (maxLen [litOne]) 0 = true →
        scoreDesc [litOne] e (maxFloodTailLen [litOne]) ≤
          scoreDesc [litOne] best (maxFloodTailLen [litOne])) ∧
      (∀ e ∈ l1, isAllowed [litOne] e (maxLen [litOne]) 0 = true →
        scoreDesc [litOne] e (maxFloodTailLen [litOne]) <
          scoreDesc [litOne] best (maxFloodTailLen [litOne])) :=
  c3_choose_max_score_first [engCatA] 0 [litOne] ⟨engCatA, by decide, by decide⟩

/-- C6: `chooseTeddyEngine` returns `none` exactly when no catalog
descriptor passes the eligibility filter; otherwise it returns (a clone
of) a catalog descriptor that passed the filter. -/
theorem c6_choose_none_iff (descs : List TeddyEngineDescription)
    (target : Nat) (vl : List hwlmLiteral) :
    (chooseTeddyEngine descs target vl = none ↔
      ∀ e ∈ descs, isAllowed vl e (maxLen vl) target = false) ∧
    ∀ d, chooseTeddyEngine descs target vl = some d →
      d ∈ descs ∧ isAllowed vl d (maxLen vl) target = true := by
  have hinv := selLoop_inv target vl (maxLen vl) (maxFloodTailLen vl) descs
  rcases hacc : descs.foldl
      (chooseStep target vl (maxLen vl) (maxFloodTailLen vl)) none with
    _ | ⟨d, sc⟩
  · rw [hacc] at hinv
    refine ⟨⟨fun _ => hinv, fun _ => by rw [chooseTeddy_eq_fold, hacc]; rfl⟩,
      ?_⟩
    intro d hd
    rw [chooseTeddy_eq_fold, hacc] at hd
    cases hd
  · rw [hacc] at hinv
    obtain ⟨hsc, hd, l1, l2, hsplit, hlt, hle⟩ := hinv
    have hsome : chooseTeddyEngine descs target vl = some d := by
      rw [chooseTeddy_eq_fold, hacc]
      rfl
    refine ⟨⟨?_, ?_⟩, ?_⟩
    · intro hnone
      rw [hsome] at hnone
      cases hnone
    · intro hall
      have := hall d (by rw [hsplit]; simp)
      rw [this] at hd
      cases hd
    · intro d2 hd2
      rw [hsome] at hd2
      injection hd2 with hdd
      subst hdd
      exact ⟨by rw [hsplit]; simp, hd⟩

/-- C7: whenever `chooseTeddyEngine` returns a descriptor,
`getTeddyDescription` applied to that descriptor's id finds a catalog
entry with the same id. -/
theorem c7_find_choose_roundTrip (descs : List TeddyEngineDescription)
    (target : Nat) (vl : List hwlmLiteral) (d : TeddyEngineDescription)
    (h : chooseTeddyEngine descs target vl = some d) :
    ∃ d2, getTeddyDescription descs d.getID = some d2 ∧
      d2.getID = d.getID := by
  obtain ⟨hmem, _⟩ := chooseTeddy_mem descs target vl d h
  have hex : ∃ e ∈ descs, (e.getID == d.getID) = true :=
    ⟨d, hmem, by simp⟩
  have hsome : (descs.find? fun desc => desc.getID == d.getID).isSome :=
    List.find?_isSome.mpr hex
  obtain ⟨d2, hd2⟩ := Option.isSome_iff_exists.mp hsome
  refine ⟨d2, hd2, ?_⟩
  have := List.find?_some hd2
  simpa using this

/-- Witness for C7: the round trip on the single-entry catalog
`[engCatA]`. -/
theorem c7_find_choose_roundTrip_witness :
    ∃ d2, getTeddyDescription [engCatA] (engCatA.getID) = some d2 ∧
      d2.getID = engCatA.getID :=
  c7_find_choose_roundTrip [engCatA] 0 [litOne] engCatA (by decide)

set_option maxRecDepth 10000 in
/-- C5, counterexample: with 50 literals of which exactly 10 (exactly 20
percent) are shorter than `numMasks`, the short-literal count times 5
equals (is at least) the total count, yet `isAllowed` accepts the
descriptor: the code rejects only strictly above 20 percent
(`n_small_lits * 5 > vl.size()`). -/
theorem c5_short_literal_counterexample :
    vlFifty.length = 50 ∧ vlFifty.length > 40 ∧
    engEight.isValidOnTarget 0 = true ∧
    bucketCheckUnpacked engEight vlFifty = false ∧
    bucketCheckLoad engEight vlFifty = false ∧
    ¬ engEight.numMasks > maxLen vlFifty ∧
    (vlFifty.filter fun l =>
      decide (l.s.length < engEight.numMasks)).length * 5 ≥ vlFifty.length ∧
    isAllowed vlFifty engEight (maxLen vlFifty) 0 = true := by
  decide

/-- C5, amended: for a literal set with more than 40 literals and a
descriptor passing the capability, bucket-capacity and mask-length
checks, `isAllowed` rejects the descriptor iff the number of literals
shorter than `numMasks`, multiplied by 5, strictly exceeds the total
literal count (short literals strictly more than 20 percent of the set);
the check is not applied at all when the set has 40 or fewer literals. -/
theorem c5_short_literal_heuristic (vl : List hwlmLiteral)
    (eng : TeddyEngineDescription) (mll target : Nat)
    (hvalid : eng.isValidOnTarget target = true)
    (h2 : bucketCheckUnpacked eng vl = false)
    (h3 : bucketCheckLoad eng vl = false)
    (h4 : ¬ eng.numMasks > mll) :
    (vl.length > 40 →
      (isAllowed vl eng mll target = false ↔
        (vl.filter fun l =>
          decide (l.s.length < eng.numMasks)).length * 5 > vl.length)) ∧
    (¬ vl.length > 40 → isAllowed vl eng mll target = true) := by
  rw [isAllowed, if_neg (by simp [hvalid]), if_neg (by simp [h2]),
    if_neg (by simp [h3]), if_neg (by simp [h4])]
  constructor
  · intro h40
    rw [if_pos (by simpa using h40)]
    show (if decide ((vl.filter fun lit =>
        decide (lit.s.length < eng.numMasks)).length * 5 > vl.length) = true
      then false else true) = false ↔
      (vl.filter fun l =>
        decide (l.s.length < eng.numMasks)).length * 5 > vl.length
    by_cases hsm : (vl.filter fun lit =>
        decide (lit.s.length < eng.numMasks)).length * 5 > vl.length
    · rw [if_pos (decide_eq_true hsm)]
      exact ⟨fun _ => hsm, fun _ => rfl⟩
    · rw [if_neg (by simpa using hsm)]
      exact ⟨fun htrue => absurd htrue (by simp),
        fun hcon => absurd hcon hsm⟩
  · intro h40
    rw [if_neg (by simpa using h40)]

set_option maxRecDepth 10000 in
/-- Witness for C5: with 11 short literals among 50 (strictly more than
20 percent) the descriptor is rejected. -/
theorem c5_short_literal_heuristic_witness :
    isAllowed vlFiftyOne engEight 3 0 = false := by
  have h := c5_short_literal_heuristic vlFiftyOne engEight 3 0
    (by decide) (by decide) (by decide) (by decide)
  exact (h.1 (by decide)).mpr (by decide)

/-- C8: the two bucket-capacity checks of the eligibility filter are
monotonic under shrinking the literal set: if neither check fires for a
set `S`, neither fires for any set obtained from `S` by removing
literals. -/
theorem c8_bucket_checks_monotone (eng : TeddyEngineDescription)
    (S T : List hwlmLiteral) (hsub : T.Sublist S)
    (h2 : bucketCheckUnpacked eng S = false)
    (h3 : bucketCheckLoad eng S = false) :
    bucketCheckUnpacked eng T = false ∧ bucketCheckLoad eng T = false := by
  have hlen : T.length ≤ S.length := hsub.length_le
  constructor
  · cases hp : eng.packed
    · rw [bucketCheckUnpacked, hp] at h2
      simp at h2
      rw [bucketCheckUnpacked, hp]
      simp
      omega
    · rw [bucketCheckUnpacked, hp]
      simp
  · rw [bucketCheckLoad] at h3
    simp at h3
    rw [bucketCheckLoad]
    simp
    omega

/-- Witness for C8: the checks hold for a two-literal set and survive
removal of one literal. -/
theorem c8_bucket_checks_monotone_witness :
    bucketCheckUnpacked engCatA [litOne] = false ∧
    bucketCheckLoad engCatA [litOne] = false :=
  c8_bucket_checks_monotone engCatA [litOne, shortLit] [litOne]
    (by decide) (by decide) (by decide)

/-- C9: under the precondition that every literal is non-empty, the
flood-tail analysis is safe: the source's assertion `assert(!s.empty())`
holds for every literal and every string access (`s[s.length() - j - 1]`
and `s[s.length() - 1]`) is in bounds, so the checked analysis returns
exactly the unchecked value and never fails. -/
theorem c9_flood_tail_safe (vl : List hwlmLiteral)
    (h : ∀ l ∈ vl, l.s ≠ []) :
    maxFloodTailLenChecked vl = some (maxFloodTailLen vl) :=
  maxFloodTailChecked_go vl h 0

/-- Witness for C9: the checked analysis on a singleton set. -/
theorem c9_flood_tail_safe_witness :
    maxFloodTailLenChecked [litOne] = some (maxFloodTailLen [litOne]) :=
  c9_flood_tail_safe [litOne] (by decide)

/-- C10: for every non-empty literal set of non-empty literals the
maximum flood tail is at least 1, so the +50 flood bonus condition
`numMasks > maxFloodTail` can never hold for a descriptor with one
mask. -/
theorem c10_flood_tail_at_least_one (vl : List hwlmLiteral) (hne : vl ≠ [])
    (h : ∀ l ∈ vl, l.s ≠ []) :
    1 ≤ maxFloodTailLen vl ∧
    ∀ eng : TeddyEngineDescription, eng.numMasks = 1 →
      ¬ eng.numMasks > maxFloodTailLen vl := by
  have h1 : 1 ≤ maxFloodTailLen vl := by
    cases vl with
    | nil => cases hne rfl
    | cons x xs =>
        have hx : 1 ≤ max 0 (floodTailLen x.s) :=
          le_trans (floodTailLen_ge_one x.s) (le_max_right _ _)
        have hfold :
            max 0 (floodTailLen x.s) ≤
              xs.foldl (fun m l => max m (floodTailLen l.s))
                (max 0 (floodTailLen x.s)) :=
          le_foldl_max _ xs _
        rw [maxFloodTailLen, List.foldl_cons]
        exact le_trans hx hfold
  refine ⟨h1, ?_⟩
  intro eng hm
  rw [hm]
  omega

/-- Witness for C10: the singleton set containing `"ab"`. -/
theorem c10_flood_tail_at_least_one_witness :
    1 ≤ maxFloodTailLen [litOne] ∧
    ∀ eng : TeddyEngineDescription, eng.numMasks = 1 →
      ¬ eng.numMasks > maxFloodTailLen [litOne] :=
  c10_flood_tail_at_least_one [litOne] (by decide) (by decide)
